import Mathlib

/-!
Verification development for the phastSim sequence-evolution simulator
(driver script `efficientSimuSARS2.py`).

The repository's source tree holds the driver script; the core data
structures it instantiates (`GenomeTree_hierarchical`, `GenomeTree_vanilla`
and their methods) live in the `phastSim` library module, of which only the
call sites appear in the driver.  Those structures are therefore modelled
here from the specification's own description, while the driver's order of
operations is embedded directly from the script.

Rates are modelled as rational numbers, matching the specification's talk
of exact sums and exact proportional sampling.
-/

namespace PhastSim

/-! Section: Hierarchical rate tree (spec §4.1) -/

/-- Modelled from the spec: a `RateTreeNode` is either a leaf wrapping one
site's current outgoing-rate vector, or an internal node with two children
and a cached total.  The class `GenomeTree_hierarchical` holding this
structure is in the `phastSim` module, not in the driver source. -/
inductive RateTree where
  | leaf (rates : List ℚ)
  | node (total : ℚ) (l : RateTree) (r : RateTree)
deriving DecidableEq

/-- Number of leaves (genome positions) below a node. -/
def RateTree.numLeaves : RateTree → Nat
  | .leaf _ => 1
  | .node _ l r => l.numLeaves + r.numLeaves

/-- Total outgoing rate of each leaf below a node, left to right. -/
def RateTree.leafTotals : RateTree → List ℚ
  | .leaf rates => [rates.sum]
  | .node _ l r => l.leafTotals ++ r.leafTotals

/-- Exact sum of the outgoing rates of all leaves below a node, recomputed
from scratch (the ground truth the cached totals must match). -/
def RateTree.recomputedTotal : RateTree → ℚ
  | .leaf rates => rates.sum
  | .node _ l r => l.recomputedTotal + r.recomputedTotal

/-- Cached total stored at a node (a leaf's total is its rate-vector sum). -/
def RateTree.cachedTotal : RateTree → ℚ
  | .leaf rates => rates.sum
  | .node t _ _ => t

/-- Modelled from the spec: `TotalRate()` returns the root's cached total. -/
def totalRate (tr : RateTree) : ℚ := tr.cachedTotal

/-- Rate-consistency invariant: every internal node's cached total equals
the exact sum of its subtree leaves' outgoing rates. -/
def RateTree.wf : RateTree → Prop
  | .leaf _ => True
  | .node t l r => t = l.recomputedTotal + r.recomputedTotal ∧ l.wf ∧ r.wf

instance RateTree.wfDecidable : (tr : RateTree) → Decidable tr.wf
  | .leaf _ => isTrue trivial
  | .node t l r =>
    have hl : Decidable l.wf := wfDecidable l
    have hr : Decidable r.wf := wfDecidable r
    inferInstanceAs (Decidable (_ ∧ _ ∧ _))

/-- Modelled from the spec: `Build` over a list of per-site outgoing-rate
vectors, splitting the range in half (balanced binary tree) and caching
bottom-up sums.  Structural recursion on a fuel bounded by the list length. -/
def buildAux : Nat → List (List ℚ) → RateTree
  | 0, leaves => .leaf (leaves.headD [])
  | fuel + 1, leaves =>
    if leaves.length ≤ 1 then .leaf (leaves.headD [])
    else
      let k := leaves.length / 2
      let l := buildAux fuel (leaves.take k)
      let r := buildAux fuel (leaves.drop k)
      .node (l.recomputedTotal + r.recomputedTotal) l r

/-- Modelled from the spec: build the hierarchical rate tree over the given
per-site rate vectors. -/
def build (leaves : List (List ℚ)) : RateTree := buildAux leaves.length leaves

/-- Current rate vector of the leaf at the given position (descending by
left-subtree leaf counts). -/
def getLeafRates : RateTree → Nat → List ℚ
  | .leaf rates, _ => rates
  | .node _ l r, pos =>
    if pos < l.numLeaves then getLeafRates l pos
    else getLeafRates r (pos - l.numLeaves)

/-- Modelled from the spec: `ApplyMutation(position, newRates)` replaces the
leaf's rate vector and adds `delta = new leaf total − old leaf total` to the
cached total of every ancestor up to the root. -/
def applyMutation : RateTree → Nat → List ℚ → RateTree
  | .leaf _, _, newRates => .leaf newRates
  | .node t l r, pos, newRates =>
    if pos < l.numLeaves then
      .node (t + (newRates.sum - (getLeafRates l pos).sum))
        (applyMutation l pos newRates) r
    else
      .node (t + (newRates.sum - (getLeafRates r (pos - l.numLeaves)).sum))
        l (applyMutation r (pos - l.numLeaves) newRates)

/-- Fold a sequence of mutations (position, new rate vector) over a tree. -/
def applyMutationSeq (tr : RateTree) (muts : List (Nat × List ℚ)) : RateTree :=
  muts.foldl (fun t m => applyMutation t m.1 m.2) tr

lemma recomputedTotal_applyMutation (tr : RateTree) (pos : Nat) (nr : List ℚ) :
    (applyMutation tr pos nr).recomputedTotal =
      tr.recomputedTotal + (nr.sum - (getLeafRates tr pos).sum) := by
  induction tr generalizing pos with
  | leaf rates => simp [applyMutation, getLeafRates, RateTree.recomputedTotal] <;> ring
  | node t l r ihl ihr =>
    by_cases h : pos < l.numLeaves
    · simp [applyMutation, getLeafRates, RateTree.recomputedTotal, h, ihl] <;> ring
    · simp [applyMutation, getLeafRates, RateTree.recomputedTotal, h, ihr] <;> ring

lemma wf_applyMutation (tr : RateTree) (pos : Nat) (nr : List ℚ)
    (hwf : tr.wf) : (applyMutation tr pos nr).wf := by
  induction tr generalizing pos with
  | leaf rates => trivial
  | node t l r ihl ihr =>
    obtain ⟨ht, hl, hr⟩ := hwf
    by_cases h : pos < l.numLeaves
    · simp only [applyMutation, if_pos h]
      exact ⟨by rw [recomputedTotal_applyMutation, ht]; ring, ihl pos hl, hr⟩
    · simp only [applyMutation, if_neg h]
      exact ⟨by rw [recomputedTotal_applyMutation, ht]; ring, hl,
        ihr (pos - l.numLeaves) hr⟩

lemma wf_buildAux (fuel : Nat) (leaves : List (List ℚ)) :
    (buildAux fuel leaves).wf := by
  induction fuel generalizing leaves with
  | zero => trivial
  | succ n ih =>
    by_cases h : leaves.length ≤ 1
    · simp only [buildAux, h, if_pos]; trivial
    · simp only [buildAux, h, if_neg, not_false_iff]
      exact ⟨rfl, ih _, ih _⟩

lemma wf_build (leaves : List (List ℚ)) : (build leaves).wf :=
  wf_buildAux _ _

lemma cachedTotal_eq_recomputedTotal (tr : RateTree) (hwf : tr.wf) :
    tr.cachedTotal = tr.recomputedTotal := by
  cases tr with
  | leaf rates => rfl
  | node t l r => exact hwf.1

lemma wf_applyMutationSeq (tr : RateTree) (muts : List (Nat × List ℚ))
    (hwf : tr.wf) : (applyMutationSeq tr muts).wf := by
  induction muts generalizing tr with
  | nil => exact hwf
  | cons m ms ih => exact ih _ (wf_applyMutation _ _ _ hwf)

/-- C1: after `Build` and after any sequence of `ApplyMutation` calls (each
of which adds the leaf-total delta to every ancestor), every internal
node's cached total equals the exact sum of the outgoing rates of the
leaves in its subtree, and `TotalRate()` returns the root's cached total,
which therefore equals the exact sum over all leaves. -/
theorem hierarchical_rate_consistency (leaves : List (List ℚ))
    (muts : List (Nat × List ℚ)) :
    (applyMutationSeq (build leaves) muts).wf ∧
    totalRate (applyMutationSeq (build leaves) muts) =
      (applyMutationSeq (build leaves) muts).cachedTotal ∧
    totalRate (applyMutationSeq (build leaves) muts) =
      (applyMutationSeq (build leaves) muts).recomputedTotal := by
  have hwf := wf_applyMutationSeq (build leaves) muts (wf_build leaves)
  exact ⟨hwf, rfl, cachedTotal_eq_recomputedTotal _ hwf⟩

/-! Section: Proportional site sampling (spec §4.1 SampleSite) -/

/-- Modelled from the spec: `SampleSite` descends from the root; at each
internal node it compares the remaining target value against the left
child's cached total to choose the branch, recursing with the remainder,
and terminates at a leaf. -/
def sampleDescend : RateTree → ℚ → Nat
  | .leaf _, _ => 0
  | .node _ l r, v =>
    if v < l.cachedTotal then sampleDescend l v
    else l.numLeaves + sampleDescend r (v - l.cachedTotal)

/-- Modelled from the spec: `SampleSite(u)` starts the descent at the value
`u · TotalRate()`. -/
def sampleSite (tr : RateTree) (u : ℚ) : Nat :=
  sampleDescend tr (u * totalRate tr)

/-- Sum of the outgoing rates of the first `i` leaves (prefix sum). -/
def ratesBefore (tr : RateTree) (i : Nat) : ℚ := (tr.leafTotals.take i).sum

/-- Total outgoing rate of leaf `i`. -/
def leafTot (tr : RateTree) (i : Nat) : ℚ := tr.leafTotals.getD i 0

lemma length_leafTotals (tr : RateTree) :
    tr.leafTotals.length = tr.numLeaves := by
  induction tr with
  | leaf rates => rfl
  | node t l r ihl ihr => simp [RateTree.leafTotals, RateTree.numLeaves, ihl, ihr]

lemma sum_leafTotals (tr : RateTree) :
    tr.leafTotals.sum = tr.recomputedTotal := by
  induction tr with
  | leaf rates => simp [RateTree.leafTotals, RateTree.recomputedTotal]
  | node t l r ihl ihr =>
    simp [RateTree.leafTotals, RateTree.recomputedTotal, ihl, ihr]

lemma take_append_left (a b : List ℚ) :
    ∀ i, i ≤ a.length → (a ++ b).take i = a.take i := by
  induction a with
  | nil => intro i h; simp at h; simp [h]
  | cons x xs ih =>
    intro i h
    cases i with
    | zero => rfl
    | succ k => simp [List.take_succ_cons, ih k (by simpa using h)]

lemma take_append_right (a b : List ℚ) (j : Nat) :
    (a ++ b).take (a.length + j) = a ++ b.take j := by
  induction a with
  | nil => simp
  | cons x xs ih =>
    have h : (x :: xs).length + j = (xs.length + j) + 1 := by
      simp [List.length_cons]; omega
    rw [h, List.cons_append, List.take_succ_cons, ih]
    rfl

lemma getD_append_left (a b : List ℚ) :
    ∀ i, i < a.length → (a ++ b).getD i 0 = a.getD i 0 := by
  induction a with
  | nil => intro i h; simp at h
  | cons x xs ih =>
    intro i h
    cases i with
    | zero => rfl
    | succ k => simpa using ih k (by simpa using h)

lemma getD_append_right (a b : List ℚ) (j : Nat) :
    (a ++ b).getD (a.length + j) 0 = b.getD j 0 := by
  induction a with
  | nil => simp
  | cons x xs ih =>
    have h : (x :: xs).length + j = (xs.length + j) + 1 := by
      simp [List.length_cons]; omega
    rw [h, List.cons_append, List.getD_cons_succ, ih]

lemma ratesBefore_node_left (t : ℚ) (l r : RateTree) (i : Nat)
    (h : i ≤ l.numLeaves) :
    ratesBefore (.node t l r) i = ratesBefore l i := by
  unfold ratesBefore
  simp only [RateTree.leafTotals]
  rw [take_append_left _ _ i (by rw [length_leafTotals]; exact h)]

lemma leafTot_node_left (t : ℚ) (l r : RateTree) (i : Nat)
    (h : i < l.numLeaves) :
    leafTot (.node t l r) i = leafTot l i := by
  unfold leafTot
  simp only [RateTree.leafTotals]
  rw [getD_append_left _ _ i (by rw [length_leafTotals]; exact h)]

lemma ratesBefore_node_right (t : ℚ) (l r : RateTree) (j : Nat) :
    ratesBefore (.node t l r) (l.numLeaves + j) =
      l.recomputedTotal + ratesBefore r j := by
  unfold ratesBefore
  simp only [RateTree.leafTotals]
  rw [← length_leafTotals, take_append_right, List.sum_append, sum_leafTotals]

lemma leafTot_node_right (t : ℚ) (l r : RateTree) (j : Nat) :
    leafTot (.node t l r) (l.numLeaves + j) = leafTot r j := by
  unfold leafTot
  simp only [RateTree.leafTotals]
  rw [← length_leafTotals, getD_append_right]

lemma sampleDescend_interval (tr : RateTree) (hwf : tr.wf)
    (hnn : ∀ x ∈ tr.leafTotals, 0 ≤ x) :
    ∀ v : ℚ, 0 ≤ v → v < tr.recomputedTotal →
      sampleDescend tr v < tr.numLeaves ∧
      ratesBefore tr (sampleDescend tr v) ≤ v ∧
      v < ratesBefore tr (sampleDescend tr v) + leafTot tr (sampleDescend tr v) := by
  induction tr with
  | leaf rates =>
    intro v h0 hv
    simp only [sampleDescend, RateTree.numLeaves, ratesBefore, leafTot,
      RateTree.leafTotals, List.take_zero, List.sum_nil, List.getD_cons_zero]
    refine ⟨Nat.one_pos, h0, ?_⟩
    simpa [RateTree.recomputedTotal] using hv
  | node t l r ihl ihr =>
    intro v h0 hv
    obtain ⟨ht, hl, hr⟩ := hwf
    have hnnl : ∀ x ∈ l.leafTotals, 0 ≤ x := fun x hx =>
      hnn x (by simp [RateTree.leafTotals, hx])
    have hnnr : ∀ x ∈ r.leafTotals, 0 ≤ x := fun x hx =>
      hnn x (by simp [RateTree.leafTotals, hx])
    have hcl : l.cachedTotal = l.recomputedTotal :=
      cachedTotal_eq_recomputedTotal l hl
    have hrec : (RateTree.node t l r).recomputedTotal =
        l.recomputedTotal + r.recomputedTotal := rfl
    by_cases h : v < l.cachedTotal
    · have ih := ihl hl hnnl v h0 (by rw [← hcl]; exact h)
      simp only [sampleDescend, if_pos h]
      refine ⟨?_, ?_, ?_⟩
      · exact Nat.lt_of_lt_of_le ih.1 (Nat.le_add_right _ _)
      · rw [ratesBefore_node_left _ _ _ _ (Nat.le_of_lt ih.1)]; exact ih.2.1
      · rw [ratesBefore_node_left _ _ _ _ (Nat.le_of_lt ih.1),
          leafTot_node_left _ _ _ _ ih.1]
        exact ih.2.2
    · have hge : l.cachedTotal ≤ v := le_of_not_lt h
      have h0' : 0 ≤ v - l.cachedTotal := by linarith
      have hv' : v - l.cachedTotal < r.recomputedTotal := by
        rw [hcl] at hge ⊢
        rw [hrec] at hv
        linarith
      have ih := ihr hr hnnr (v - l.cachedTotal) h0' hv'
      simp only [sampleDescend, if_neg h]
      refine ⟨?_, ?_, ?_⟩
      · exact Nat.add_lt_add_left ih.1 _
      · rw [ratesBefore_node_right]
        rw [hcl] at hge
        have := ih.2.1
        rw [hcl] at this ⊢
        linarith
      · rw [ratesBefore_node_right, leafTot_node_right]
        have := ih.2.2
        rw [hcl] at this
        linarith

lemma sum_take_mono (l : List ℚ) (hnn : ∀ x ∈ l, 0 ≤ x) (i j : Nat)
    (hij : i ≤ j) : (l.take i).sum ≤ (l.take j).sum := by
  have h1 : ((l.take j).take i).sum + ((l.take j).drop i).sum = (l.take j).sum :=
    List.sum_take_add_sum_drop _ _
  rw [List.take_take, Nat.min_eq_left hij] at h1
  have h2 : 0 ≤ ((l.take j).drop i).sum :=
    List.sum_nonneg (fun x hx =>
      hnn x (List.take_subset _ _ (List.drop_subset _ _ hx)))
  linarith

lemma sum_take_succ (l : List ℚ) :
    ∀ i, i < l.length → (l.take (i + 1)).sum = (l.take i).sum + l.getD i 0 := by
  induction l with
  | nil => intro i h; simp at h
  | cons x xs ih =>
    intro i h
    cases i with
    | zero => simp
    | succ k =>
      have hk := ih k (by simpa using h)
      simp only [List.take_succ_cons, List.sum_cons, List.getD_cons_succ, hk]
      ring

lemma interval_unique (tr : RateTree) (hnn : ∀ x ∈ tr.leafTotals, 0 ≤ x)
    {v : ℚ} {i j : Nat}
    (hi : i < tr.numLeaves ∧ ratesBefore tr i ≤ v ∧
      v < ratesBefore tr i + leafTot tr i)
    (hj : j < tr.numLeaves ∧ ratesBefore tr j ≤ v ∧
      v < ratesBefore tr j + leafTot tr j) :
    i = j := by
  have key : ∀ a bb : Nat, a < tr.numLeaves → bb < tr.numLeaves → a < bb →
      ratesBefore tr a ≤ v → v < ratesBefore tr a + leafTot tr a →
      ratesBefore tr bb ≤ v → v < ratesBefore tr bb + leafTot tr bb → False := by
    intro a bb ha hb hab ha1 ha2 hb1 hb2
    have e1 : ratesBefore tr (a + 1) = ratesBefore tr a + leafTot tr a :=
      sum_take_succ tr.leafTotals a (by rw [length_leafTotals]; exact ha)
    have e2 : ratesBefore tr (a + 1) ≤ ratesBefore tr bb :=
      sum_take_mono tr.leafTotals hnn _ _ hab
    linarith
  rcases Nat.lt_trichotomy i j with h | h | h
  · exact absurd (key i j hi.1 hj.1 h hi.2.1 hi.2.2 hj.2.1 hj.2.2) not_false
  · exact h
  · exact absurd (key j i hj.1 hi.1 h hj.2.1 hj.2.2 hi.2.1 hi.2.2) not_false

/-- C2: for `u ∈ [0,1)` over a consistent tree with nonnegative leaf rates
and positive total rate, `SampleSite(u)` terminates at a leaf index below
the leaf count, and returns site `i` exactly when `u · TotalRate()` falls
in site i's prefix-sum interval — so sites are chosen with probability
exactly proportional to their current outgoing rate. -/
theorem sampleSite_proportional (tr : RateTree) (hwf : tr.wf)
    (hnn : ∀ x ∈ tr.leafTotals, 0 ≤ x) (u : ℚ) (h0 : 0 ≤ u) (h1 : u < 1)
    (hpos : 0 < totalRate tr) (i : Nat) :
    sampleSite tr u = i ↔
      (i < tr.numLeaves ∧ ratesBefore tr i ≤ u * totalRate tr ∧
        u * totalRate tr < ratesBefore tr i + leafTot tr i) := by
  have hcr : totalRate tr = tr.recomputedTotal :=
    cachedTotal_eq_recomputedTotal tr hwf
  have hv0 : 0 ≤ u * totalRate tr := mul_nonneg h0 (le_of_lt hpos)
  have hv1 : u * totalRate tr < tr.recomputedTotal := by
    rw [← hcr]
    calc u * totalRate tr < 1 * totalRate tr :=
          mul_lt_mul_of_pos_right h1 hpos
      _ = totalRate tr := one_mul _
  have hm := sampleDescend_interval tr hwf hnn _ hv0 hv1
  constructor
  · rintro rfl
    simpa [sampleSite] using hm
  · intro hi
    have : sampleDescend tr (u * totalRate tr) = i :=
      interval_unique tr hnn (by simpa using hm) hi
    simpa [sampleSite] using this

/-- Concrete four-leaf tree with leaf rates 1, 2, 3, 4 (total 10), used by
witnesses. -/
def fourLeafTree : RateTree :=
  .node 10 (.node 3 (.leaf [1]) (.leaf [2])) (.node 7 (.leaf [3]) (.leaf [4]))

/-- Witness for C2: over leaf rates 1, 2, 3, 4 (total 10), the draw
`u = 1/2` lands at value 5, inside site 2's interval [3, 6). -/
theorem sampleSite_proportional_witness :
    sampleSite fourLeafTree (1/2) = 2 ↔
      (2 < fourLeafTree.numLeaves ∧
        ratesBefore fourLeafTree 2 ≤ (1/2) * totalRate fourLeafTree ∧
        (1/2) * totalRate fourLeafTree <
          ratesBefore fourLeafTree 2 + leafTot fourLeafTree 2) :=
  sampleSite_proportional fourLeafTree
    (by norm_num [fourLeafTree, RateTree.wf, RateTree.recomputedTotal])
    (by norm_num [fourLeafTree, RateTree.leafTotals])
    (1/2) (by norm_num) (by norm_num)
    (by norm_num [fourLeafTree, totalRate, RateTree.cachedTotal]) 2

/-! Section: Gillespie branch simulator (spec §4.2) -/

/-- Modelled from the spec: a `MutationEvent` records position,
time-within-branch, from-allele and to-allele. -/
structure MutEvent where
  pos : Nat
  time : ℚ
  fromAllele : Nat
  toAllele : Nat
deriving DecidableEq

/-- One packet of randomness for a Gillespie step: the exponential waiting
time already drawn against the current total rate, the uniform draw for
site selection, and the uniform draw for destination-allele selection. -/
structure RandDraw where
  wait : ℚ
  uSite : ℚ
  uAllele : ℚ

/-- Index whose prefix-sum interval contains the target value (used for the
destination-allele draw proportional to a rate-vector row). -/
def chooseIndex : List ℚ → ℚ → Nat
  | [], _ => 0
  | x :: xs, v => if v < x then 0 else 1 + chooseIndex xs (v - x)

/-- State carried along one branch: the lineage's rate-tree view plus the
current allele at each position. -/
structure BranchState where
  tree : RateTree
  alleles : List Nat

/-- State after one Gillespie event: the selected site's leaf is replaced
by the recomputed rate vector for the destination allele, and the allele
record is updated. -/
def stepState (recompute : Nat → Nat → List ℚ) (st : BranchState)
    (d : RandDraw) : BranchState :=
  let pos := sampleSite st.tree d.uSite
  let rates := getLeafRates st.tree pos
  let toA := chooseIndex rates (d.uAllele * rates.sum)
  ⟨applyMutation st.tree pos (recompute pos toA), st.alleles.set pos toA⟩

/-- The mutation event recorded for one Gillespie step, at the elapsed time
plus the drawn waiting time. -/
def stepEvent (st : BranchState) (d : RandDraw) (elapsed : ℚ) : MutEvent :=
  let pos := sampleSite st.tree d.uSite
  let rates := getLeafRates st.tree pos
  ⟨pos, elapsed + d.wait, st.alleles.getD pos 0,
    chooseIndex rates (d.uAllele * rates.sum)⟩

/-- Modelled from the spec: the Gillespie branch simulator.  With remaining
branch length `b`: if the total rate is 0 the branch completes with no
events; if the drawn waiting time `t ≥ b` the branch ends with no further
events; else a site is selected via `SampleSite`, a destination allele is
drawn proportional to that site's rate vector, a `MutEvent` is recorded at
the current elapsed time, the mutation is applied via `ApplyMutation`
(the new rate vector given by `recompute`), `b ← b − t`, and it repeats.
The finite list of draws bounds the number of iterations. -/
def simulateBranch (recompute : Nat → Nat → List ℚ) :
    List RandDraw → BranchState → ℚ → ℚ → List MutEvent × BranchState
  | [], st, _, _ => ([], st)
  | d :: ds, st, b, elapsed =>
    if totalRate st.tree = 0 then ([], st)
    else if b ≤ d.wait then ([], st)
    else
      let rest := simulateBranch recompute ds (stepState recompute st d)
        (b - d.wait) (elapsed + d.wait)
      (stepEvent st d elapsed :: rest.1, rest.2)

lemma simulateBranch_times (recompute : Nat → Nat → List ℚ)
    (draws : List RandDraw) :
    ∀ st (b e : ℚ), (∀ d ∈ draws, 0 < d.wait) →
      ((simulateBranch recompute draws st b e).1.map MutEvent.time).Chain' (· < ·) ∧
      ∀ ev ∈ (simulateBranch recompute draws st b e).1,
        e < ev.time ∧ ev.time < e + b := by
  induction draws with
  | nil => intro st b e _; simp [simulateBranch]
  | cons d ds ih =>
    intro st b e hpos
    have hpos' : ∀ x ∈ ds, 0 < x.wait := fun x hx =>
      hpos x (List.mem_cons_of_mem d hx)
    have hw : 0 < d.wait := hpos d (List.mem_cons_self d ds)
    by_cases h0 : totalRate st.tree = 0
    · simp [simulateBranch, h0]
    by_cases hb : b ≤ d.wait
    · simp [simulateBranch, h0, hb]
    have hlt : d.wait < b := lt_of_not_le hb
    obtain ⟨ch, bnd⟩ :=
      ih (stepState recompute st d) (b - d.wait) (e + d.wait) hpos'
    have htime : (stepEvent st d e).time = e + d.wait := rfl
    constructor
    · simp only [simulateBranch, if_neg h0, if_neg hb, List.map_cons]
      refine List.chain'_cons'.2 ⟨?_, ch⟩
      intro y hy
      rcases List.mem_map.1 (List.mem_of_mem_head? hy) with ⟨ev, hev, rfl⟩
      rw [htime]
      exact (bnd ev hev).1
    · intro ev hev
      simp only [simulateBranch, if_neg h0, if_neg hb, List.mem_cons] at hev
      rcases hev with rfl | hev
      · rw [htime]
        constructor <;> linarith
      · have h1 := bnd ev hev
        constructor <;> linarith [h1.1, h1.2]

/-- C3: along one branch the Gillespie loop stops when the waiting time
reaches the remaining length, and otherwise records an event at the
current elapsed time before continuing on the shortened branch; hence,
when every drawn waiting time is positive, the branch's mutation-event
list is strictly ordered by time of occurrence and every recorded event
time is strictly less than the branch length. -/
theorem gillespie_branch_events (recompute : Nat → Nat → List ℚ)
    (draws : List RandDraw) (st : BranchState) (b : ℚ)
    (hpos : ∀ d ∈ draws, 0 < d.wait) :
    ((simulateBranch recompute draws st b 0).1.map MutEvent.time).Chain' (· < ·) ∧
    ∀ ev ∈ (simulateBranch recompute draws st b 0).1,
      0 < ev.time ∧ ev.time < b := by
  have h := simulateBranch_times recompute draws st b 0 hpos
  exact ⟨h.1, fun ev hev => by simpa using h.2 ev hev⟩

/-- Witness for C3: one positive waiting time 1/2 on a branch of length 1
over the four-leaf tree. -/
theorem gillespie_branch_events_witness :
    (((simulateBranch (fun _ _ => [1]) [⟨1/2, 0, 0⟩]
        ⟨fourLeafTree, [0, 0, 0, 0]⟩ 1 0).1).map MutEvent.time).Chain' (· < ·) ∧
    ∀ ev ∈ (simulateBranch (fun _ _ => [1]) [⟨1/2, 0, 0⟩]
        ⟨fourLeafTree, [0, 0, 0, 0]⟩ 1 0).1, 0 < ev.time ∧ ev.time < 1 :=
  gillespie_branch_events (fun _ _ => [1]) [⟨1/2, 0, 0⟩]
    ⟨fourLeafTree, [0, 0, 0, 0]⟩ 1
    (by intro d hd; simp at hd; subst hd; norm_num)

/-- C4: a branch whose current total rate is exactly 0 produces an empty
mutation list regardless of the branch length — the simulator returns the
empty list in-flow rather than failing. -/
theorem zero_rate_empty_branch (recompute : Nat → Nat → List ℚ)
    (draws : List RandDraw) (st : BranchState) (b e : ℚ)
    (h : totalRate st.tree = 0) :
    (simulateBranch recompute draws st b e).1 = [] := by
  cases draws with
  | nil => rfl
  | cons d ds => simp [simulateBranch, h]

/-- Witness for C4: a one-leaf tree with all-zero rates, a long branch and
available randomness still yield no events. -/
theorem zero_rate_empty_branch_witness :
    (simulateBranch (fun _ _ => [1]) [⟨1/2, 0, 0⟩, ⟨1/2, 0, 0⟩]
      ⟨.leaf [0, 0, 0], [0]⟩ 1000 0).1 = [] :=
  zero_rate_empty_branch (fun _ _ => [1]) [⟨1/2, 0, 0⟩, ⟨1/2, 0, 0⟩]
    ⟨.leaf [0, 0, 0], [0]⟩ 1000 0
    (by norm_num [totalRate, RateTree.cachedTotal])

/-! Section: Lineage overlays (spec §4.1 copy-on-write discipline, §4.3) -/

/-- Modelled from the spec: a lineage overlay is a sparse record mapping a
touched position to its locally recomputed leaf rate vector. -/
abbrev Overlay := List (Nat × List ℚ)

/-- Rate vector stored in the overlay for a position, if touched. -/
def overlayLookup (ov : Overlay) (pos : Nat) : Option (List ℚ) :=
  (ov.find? (fun p => p.1 == pos)).map Prod.snd

/-- Modelled from the spec: a lineage's leaf read goes through the overlay
for positions it has touched and falls through to the shared ancestor tree
for every other position. -/
def viewRates (base : RateTree) (ov : Overlay) (pos : Nat) : List ℚ :=
  match overlayLookup ov pos with
  | some rs => rs
  | none => getLeafRates base pos

/-- A shared ancestor rate tree together with the overlays of the active
lineages. -/
structure LayeredState where
  shared : RateTree
  overlays : List Overlay

/-- Modelled from the spec: applying a mutation through lineage `i`'s
overlay records the new rate vector in that overlay only; the shared tree
is not touched. -/
def mutateLineage (s : LayeredState) (i pos : Nat) (nr : List ℚ) :
    LayeredState :=
  { shared := s.shared,
    overlays := s.overlays.set i ((pos, nr) :: s.overlays.getD i []) }

lemma getD_set_ne {α : Type} (l : List α) (dflt : α) :
    ∀ i j, j ≠ i → ∀ a, (l.set i a).getD j dflt = l.getD j dflt := by
  induction l with
  | nil => intro i j h a; simp
  | cons x xs ih =>
    intro i j h a
    cases i with
    | zero =>
      cases j with
      | zero => exact absurd rfl h
      | succ k => simp
    | succ m =>
      cases j with
      | zero => simp
      | succ k =>
        simp only [List.set_cons_succ, List.getD_cons_succ]
        exact ih m k (fun hh => h (by rw [hh])) a

lemma getD_set_self {α : Type} (l : List α) (dflt : α) :
    ∀ i, i < l.length → ∀ a, (l.set i a).getD i dflt = a := by
  induction l with
  | nil => intro i h; simp at h
  | cons x xs ih =>
    intro i h a
    cases i with
    | zero => rfl
    | succ k => simpa using ih k (by simpa using h) a

/-- C5: applying a mutation through one lineage's overlay leaves the shared
ancestor tree (hence its cached totals) unchanged and every sibling
lineage's overlay and rate view unchanged; the mutating lineage's view
reads the new vector at the touched position and falls through to the
shared tree at every untouched position. -/
theorem overlay_isolation (s : LayeredState) (i pos : Nat) (nr : List ℚ)
    (hi : i < s.overlays.length) :
    (mutateLineage s i pos nr).shared = s.shared ∧
    totalRate (mutateLineage s i pos nr).shared = totalRate s.shared ∧
    (∀ j, j ≠ i →
      (mutateLineage s i pos nr).overlays.getD j [] = s.overlays.getD j []) ∧
    (∀ j, j ≠ i → ∀ q,
      viewRates (mutateLineage s i pos nr).shared
        ((mutateLineage s i pos nr).overlays.getD j []) q =
      viewRates s.shared (s.overlays.getD j []) q) ∧
    viewRates (mutateLineage s i pos nr).shared
      ((mutateLineage s i pos nr).overlays.getD i []) pos = nr ∧
    (∀ q,
      overlayLookup ((mutateLineage s i pos nr).overlays.getD i []) q = none →
      viewRates (mutateLineage s i pos nr).shared
        ((mutateLineage s i pos nr).overlays.getD i []) q =
      getLeafRates s.shared q) := by
  have hov : (mutateLineage s i pos nr).overlays.getD i [] =
      (pos, nr) :: s.overlays.getD i [] := by
    simp only [mutateLineage]
    exact getD_set_self _ _ i hi _
  refine ⟨rfl, rfl, ?_, ?_, ?_, ?_⟩
  · intro j hj
    simp only [mutateLineage]
    exact getD_set_ne _ _ i j hj _
  · intro j hj q
    simp only [mutateLineage]
    rw [getD_set_ne _ _ i j hj _]
  · rw [hov]
    simp [viewRates, overlayLookup, List.find?]
  · intro q hq
    simp only [mutateLineage] at hq ⊢
    simp only [viewRates]
    rw [hq]

/-- Witness for C5: mutating lineage 0 of a two-lineage state leaves the
shared one-leaf tree unchanged. -/
theorem overlay_isolation_witness :
    (mutateLineage ⟨RateTree.leaf [1], [[], []]⟩ 0 0 [5]).shared =
      RateTree.leaf [1] :=
  (overlay_isolation ⟨RateTree.leaf [1], [[], []]⟩ 0 0 [5] (by norm_num)).1

/-! Section: Tree traverser (spec §4.3) -/

/-- Modelled from the spec: a phylogeny node carries a branch length and an
ordered list of children. -/
inductive PhyloTree where
  | node (bl : ℚ) (children : List PhyloTree)

/-- Per-phylogeny-node mutation event lists, mirroring the phylogeny. -/
inductive MutTree where
  | node (evs : List MutEvent) (children : List MutTree)

/-- Layer the events recorded on a branch onto a rate-tree view. -/
def applyEvents (recompute : Nat → Nat → List ℚ) (tr : RateTree)
    (evs : List MutEvent) : RateTree :=
  evs.foldl (fun t e => applyMutation t e.pos (recompute e.pos e.toAllele)) tr

/-- Modelled from the spec: recursive depth-first traversal.  At each node
the branch simulator (abstracted as `sim`) runs against the view inherited
from the parent, the resulting events are layered onto that view, and each
child is processed from this node's resulting view — never from a
sibling's.  `fuel` bounds the recursion depth. -/
def traverse (sim : RateTree → ℚ → List MutEvent)
    (recompute : Nat → Nat → List ℚ) : Nat → RateTree → PhyloTree → MutTree
  | 0, _, _ => .node [] []
  | fuel + 1, view, .node bl cs =>
    let evs := sim view bl
    let view2 := applyEvents recompute view evs
    .node evs (cs.map (fun c => traverse sim recompute fuel view2 c))

/-- Subtree of a mutation-result tree at a child-index path. -/
def mutSubtreeAt : MutTree → List Nat → Option MutTree
  | mt, [] => some mt
  | .node _ cs, i :: p =>
    match cs.get? i with
    | some c => mutSubtreeAt c p
    | none => none

/-- View and phylogeny subtree reached by following a child-index path from
the root, layering onto the view only the events generated on the branches
of that root-to-node path. -/
def pathContext (sim : RateTree → ℚ → List MutEvent)
    (recompute : Nat → Nat → List ℚ) :
    RateTree → PhyloTree → List Nat → Option (RateTree × PhyloTree)
  | view, t, [] => some (view, t)
  | view, .node bl cs, i :: p =>
    match cs.get? i with
    | some c =>
      pathContext sim recompute (applyEvents recompute view (sim view bl)) c p
    | none => none

/-- C7: the traversal result below any node is fully determined by the
overlay state accumulated along the root-to-that-node path alone: once the
traverser returns from a sibling subtree, that subtree's overlay is
discarded and is never referenced by the rest of the traversal. -/
theorem traversal_uses_only_path_overlays (sim : RateTree → ℚ → List MutEvent)
    (recompute : Nat → Nat → List ℚ) (view : RateTree) (t : PhyloTree)
    (p : List Nat) (fuel : Nat) (h : p.length < fuel) :
    mutSubtreeAt (traverse sim recompute fuel view t) p =
      (pathContext sim recompute view t p).map
        (fun vc => traverse sim recompute (fuel - p.length) vc.1 vc.2) := by
  induction p generalizing view t fuel with
  | nil => simp [mutSubtreeAt, pathContext]
  | cons i p ih =>
    cases fuel with
    | zero => omega
    | succ f =>
      cases t with
      | node bl cs =>
        simp only [traverse, mutSubtreeAt, pathContext, List.get?_map]
        cases hcs : cs.get? i with
        | none => simp
        | some c =>
          simp only [Option.map_some']
          have hlen : p.length < f := by
            simpa using Nat.lt_of_succ_lt_succ h
          have := ih (applyEvents recompute view (sim view bl)) c f hlen
          simpa [Nat.succ_sub_succ] using this

/-- Witness for C7: a two-level phylogeny, path to the first child, depth
fuel 2. -/
theorem traversal_uses_only_path_overlays_witness :
    mutSubtreeAt
        (traverse (fun _ _ => []) (fun _ _ => []) 2 (RateTree.leaf [1])
          (.node 1 [.node 2 []])) [0] =
      (pathContext (fun _ _ => []) (fun _ _ => []) (RateTree.leaf [1])
          (.node 1 [.node 2 []]) [0]).map
        (fun vc => traverse (fun _ _ => []) (fun _ _ => []) 1 vc.1 vc.2) :=
  traversal_uses_only_path_overlays (fun _ _ => []) (fun _ _ => [])
    (RateTree.leaf [1]) (.node 1 [.node 2 []]) [0] 2 (by norm_num)

/-! Section: Whole-run determinism (spec §5) -/

/-- Block of `n` consecutive values of the seeded pseudo-random stream,
starting at index `k`. -/
def drawsFrom (stream : Nat → RandDraw) (k n : Nat) : List RandDraw :=
  (List.range n).map (fun j => stream (k + j))

/-- Modelled from the spec: the whole simulation run.  All randomness comes
from the single seeded stream, consumed depth-first with children in their
fixed list order; the next unconsumed stream index is threaded through the
traversal, each branch consuming a block of `maxEv` draws.  `fuel` bounds
the recursion depth. -/
def runSim (stream : Nat → RandDraw) (recompute : Nat → Nat → List ℚ)
    (maxEv : Nat) : Nat → Nat → BranchState → PhyloTree → MutTree × Nat
  | 0, k, _, _ => (.node [] [], k)
  | fuel + 1, k, st, .node bl cs =>
    let res := simulateBranch recompute (drawsFrom stream k maxEv) st bl 0
    let start : List MutTree × Nat := ([], k + maxEv)
    let folded := cs.foldl
      (fun acc c =>
        let r := runSim stream recompute maxEv fuel acc.2 res.2 c
        (acc.1 ++ [r.1], r.2)) start
    (.node res.1 folded.1, folded.2)

/-- C6: two runs with identical inputs whose seeded pseudo-random streams
agree at every index produce identical mutation-event trees for every
phylogeny node (the run is a pure function of the seed stream and the
inputs, consumed in a fixed depth-first order). -/
theorem run_determinism (s1 s2 : Nat → RandDraw)
    (recompute : Nat → Nat → List ℚ) (maxEv fuel k : Nat)
    (st : BranchState) (t : PhyloTree) (h : ∀ n, s1 n = s2 n) :
    runSim s1 recompute maxEv fuel k st t =
      runSim s2 recompute maxEv fuel k st t := by
  have hs : s1 = s2 := funext h
  rw [hs]

/-- Witness for C6: two pointwise-equal streams written differently give
the same run. -/
theorem run_determinism_witness :
    runSim (fun _ => ⟨1, 0, 0⟩) (fun _ _ => [1]) 1 1 0
        ⟨fourLeafTree, [0, 0, 0, 0]⟩ (.node 1 []) =
      runSim (fun _ => ⟨1, 0 + 0, 0⟩) (fun _ _ => [1]) 1 1 0
        ⟨fourLeafTree, [0, 0, 0, 0]⟩ (.node 1 []) :=
  run_determinism (fun _ => ⟨1, 0, 0⟩) (fun _ => ⟨1, 0 + 0, 0⟩)
    (fun _ _ => [1]) 1 1 0 ⟨fourLeafTree, [0, 0, 0, 0]⟩ (.node 1 [])
    (fun _ => by simp)

/-! Section: Driver order of operations (embedded from `efficientSimuSARS2.py`) -/

/-- Abstract steps of the driver script `efficientSimuSARS2.py`, named
after the calls it makes. -/
inductive DriverStep where
  | seedRng
  | initRootGenome
  | initSubstRates
  | initGammaRates
  | initHyperRates
  | initCodonModel
  | checkStartStopCodons
  | readTree
  | openInfoFile
  | writeInfoHeader
  | buildHierTree
  | populateGenomeTree
  | buildVanillaTree
  | prepareGenome
  | normalizeRates
  | simulateHier
  | simulateVanilla
  | writeGenomeShort
  | writeNewick
  | writeFasta
  | writePhylip
deriving DecidableEq

/-- Program order of the driver script, embedded from the source: seeding
and setup (lines 38–58, with the codon model and start/stop-codon check
only in codon mode), tree reading (64), info-file opening and header
(70–76), then per mode build/populate/normalize/simulate (93–121 for the
hierarchical mode, 129–151 for the vanilla mode), then the output writers
(160–189, the optional ones guarded by their flags). -/
def driverSteps (codon hierarchy createNewick createFasta createPhylip :
    Bool) : List DriverStep :=
  [.seedRng, .initRootGenome, .initSubstRates, .initGammaRates,
    .initHyperRates] ++
  (if codon then [.initCodonModel, .checkStartStopCodons] else []) ++
  [.readTree, .openInfoFile, .writeInfoHeader] ++
  (if hierarchy then
    [.buildHierTree, .populateGenomeTree, .normalizeRates, .simulateHier]
   else
    [.buildVanillaTree, .prepareGenome, .normalizeRates, .simulateVanilla]) ++
  [.writeGenomeShort] ++
  (if createNewick then [.writeNewick] else []) ++
  (if createFasta then [.writeFasta] else []) ++
  (if createPhylip then [.writePhylip] else [])

/-- Steps that produce (partial) output on disk. -/
def isOutputStep : DriverStep → Bool
  | .openInfoFile | .writeInfoHeader | .writeGenomeShort
  | .writeNewick | .writeFasta | .writePhylip => true
  | _ => false

/-- Steps that perform simulation work. -/
def isSimulationStep : DriverStep → Bool
  | .simulateHier | .simulateVanilla => true
  | _ => false

/-- Setup steps that read and validate configuration and inputs; a failure
in one of them raises and stops the script at that point. -/
def isSetupValidationStep : DriverStep → Bool
  | .initRootGenome | .initSubstRates | .initGammaRates | .initHyperRates
  | .initCodonModel | .checkStartStopCodons | .readTree => true
  | _ => false

/-- Index of the first occurrence of a step in the schedule. -/
def stepIdx (steps : List DriverStep) (s : DriverStep) : Nat :=
  steps.findIdx (fun x => x == s)

/-- C8: in every driver configuration, every configuration/input-validation
step — including the start/stop-codon check in codon mode — runs before
any output-producing step and before any simulation step, so a validation
failure aborts the run with no partial output and no simulation work; and
the start/stop-codon check precedes rate finalization (`normalize_rates`).
-/
theorem setup_validation_before_output
    (codon hierarchy cN cF cP : Bool) :
    (∀ s ∈ driverSteps codon hierarchy cN cF cP,
      isSetupValidationStep s = true →
      ∀ q ∈ (driverSteps codon hierarchy cN cF cP).takeWhile
          (fun x => x != s),
        isOutputStep q = false ∧ isSimulationStep q = false) ∧
    (codon = true →
      DriverStep.checkStartStopCodons ∈ driverSteps codon hierarchy cN cF cP ∧
      stepIdx (driverSteps codon hierarchy cN cF cP)
          .checkStartStopCodons <
        stepIdx (driverSteps codon hierarchy cN cF cP) .normalizeRates) := by
  revert codon hierarchy cN cF cP
  decide

/-- Witness for C8: in the codon hierarchical configuration, the seeding
step preceding the start/stop-codon check writes no output and simulates
nothing. -/
theorem setup_validation_before_output_witness :
    isOutputStep DriverStep.seedRng = false ∧
    isSimulationStep DriverStep.seedRng = false :=
  (setup_validation_before_output true true true true true).1
    DriverStep.checkStartStopCodons (by decide) (by decide)
    DriverStep.seedRng (by decide)

/-- C10: in every driver configuration, `normalize_rates` appears exactly
once, strictly after the genome structure is built (populateGenomeTree in
hierarchical mode, prepare_genome in vanilla mode) and strictly before the
mutation traversal starts, so all sampling runs against already-normalized
and scaled rates. -/
theorem normalize_rates_once_between (codon hierarchy cN cF cP : Bool) :
    ((driverSteps codon hierarchy cN cF cP).count .normalizeRates = 1) ∧
    (hierarchy = true →
      stepIdx (driverSteps codon hierarchy cN cF cP) .populateGenomeTree <
        stepIdx (driverSteps codon hierarchy cN cF cP) .normalizeRates ∧
      stepIdx (driverSteps codon hierarchy cN cF cP) .normalizeRates <
        stepIdx (driverSteps codon hierarchy cN cF cP) .simulateHier) ∧
    (hierarchy = false →
      stepIdx (driverSteps codon hierarchy cN cF cP) .prepareGenome <
        stepIdx (driverSteps codon hierarchy cN cF cP) .normalizeRates ∧
      stepIdx (driverSteps codon hierarchy cN cF cP) .normalizeRates <
        stepIdx (driverSteps codon hierarchy cN cF cP) .simulateVanilla) := by
  revert codon hierarchy cN cF cP
  decide

/-- Witness for C10: hierarchical non-codon configuration. -/
theorem normalize_rates_once_between_witness :
    ((driverSteps false true false false false).count
      DriverStep.normalizeRates = 1) ∧
    (stepIdx (driverSteps false true false false false)
        DriverStep.populateGenomeTree <
      stepIdx (driverSteps false true false false false)
        DriverStep.normalizeRates ∧
    stepIdx (driverSteps false true false false false)
        DriverStep.normalizeRates <
      stepIdx (driverSteps false true false false false)
        DriverStep.simulateHier) :=
  ⟨(normalize_rates_once_between false true false false false).1,
   (normalize_rates_once_between false true false false false).2.1 rfl⟩

/-! Section: Flat/vanilla fallback model (spec §4.4) -/

/-- Modelled from the spec: flat-model state — the per-site discrete
category assignment together with the cached per-category site counts
(`GenomeTree_vanilla` lives in the `phastSim` module, not in the driver
source). -/
structure VanillaState where
  cats : List Nat
  counts : List Nat

/-- Linear scan recomputing the number of sites in each of the `nCat`
categories. -/
def scanCounts (nCat : Nat) (cats : List Nat) : List Nat :=
  (List.range nCat).map (fun c => cats.countP (fun x => x == c))

/-- Modelled from the spec: prepare the flat model with an initial count
scan. -/
def prepareVanilla (nCat : Nat) (cats : List Nat) : VanillaState :=
  ⟨cats, scanCounts nCat cats⟩

/-- Modelled from the spec: a mutation moves one site to a new category and
the per-category counts are fixed up by a linear scan. -/
def vanillaMutate (nCat : Nat) (s : VanillaState) (pos newCat : Nat) :
    VanillaState :=
  let cats2 := s.cats.set pos newCat
  ⟨cats2, scanCounts nCat cats2⟩

/-- Fold a sequence of flat-model mutations over a state. -/
def vanillaMutateSeq (nCat : Nat) (s : VanillaState)
    (muts : List (Nat × Nat)) : VanillaState :=
  muts.foldl (fun st m => vanillaMutate nCat st m.1 m.2) s

/-- Flat-model state after preparation and a mutation sequence. -/
def vanillaStateAfter (nCat : Nat) (cats0 : List Nat)
    (muts : List (Nat × Nat)) : VanillaState :=
  vanillaMutateSeq nCat (prepareVanilla nCat cats0) muts

/-- Modelled from the spec: each category's precomputed aggregate rate is
its base rate times the cached count of sites currently in it. -/
def vanillaCatTotals (catRates : List ℚ) (s : VanillaState) : List ℚ :=
  (List.range s.counts.length).map
    (fun c => catRates.getD c 0 * (s.counts.getD c 0 : ℚ))

/-- Positions currently assigned to category `c`. -/
def sitesInCat (cats : List Nat) (c : Nat) : List Nat :=
  (List.range cats.length).filter (fun p => cats.getD p 0 == c)

/-- Category selected proportionally to the aggregate category rates. -/
def selectedCat (catRates : List ℚ) (s : VanillaState) (u1 : ℚ) : Nat :=
  chooseIndex (vanillaCatTotals catRates s)
    (u1 * (vanillaCatTotals catRates s).sum)

/-- Floor of a nonnegative rational, as a natural number. -/
def natFloor (q : ℚ) : Nat := (⌊q⌋).toNat

/-- Modelled from the spec: flat-model site sampling — select a category
proportional to its aggregate rate, then a uniformly-random site within
that category. -/
def sampleVanillaSite (catRates : List ℚ) (s : VanillaState) (u1 u2 : ℚ) :
    Nat :=
  let sites := sitesInCat s.cats (selectedCat catRates s u1)
  sites.getD (natFloor (u2 * sites.length)) 0

lemma vanillaMutateSeq_scan (nCat : Nat) (muts : List (Nat × Nat)) :
    ∀ s : VanillaState, s.counts = scanCounts nCat s.cats →
      (vanillaMutateSeq nCat s muts).counts =
        scanCounts nCat (vanillaMutateSeq nCat s muts).cats := by
  induction muts with
  | nil => intro s h; exact h
  | cons m ms ih => intro s _; exact ih (vanillaMutate nCat s m.1 m.2) rfl

lemma getD_map_range {α : Type} (f : Nat → α) (d : α) (n : Nat) :
    ∀ c, c < n → ((List.range n).map f).getD c d = f c := by
  intro c h
  rw [List.getD_eq_getElem?_getD, List.getElem?_map, List.getElem?_range h]
  rfl

lemma getD_nonneg (l : List ℚ) (hnn : ∀ x ∈ l, 0 ≤ x) :
    ∀ c, 0 ≤ l.getD c 0 := by
  induction l with
  | nil => intro c; simp
  | cons x xs ih =>
    intro c
    cases c with
    | zero => exact hnn x (List.mem_cons_self x xs)
    | succ k =>
      simpa using ih (fun y hy => hnn y (List.mem_cons_of_mem _ hy)) k

lemma vanillaCatTotals_nonneg (catRates : List ℚ) (s : VanillaState)
    (hnn : ∀ x ∈ catRates, 0 ≤ x) :
    ∀ x ∈ vanillaCatTotals catRates s, 0 ≤ x := by
  intro x hx
  rcases List.mem_map.1 hx with ⟨c, _, rfl⟩
  exact mul_nonneg (getD_nonneg catRates hnn c) (Nat.cast_nonneg _)

lemma chooseIndex_spec : ∀ l : List ℚ, (∀ x ∈ l, 0 ≤ x) →
    ∀ v : ℚ, 0 ≤ v → v < l.sum →
      chooseIndex l v < l.length ∧
      (l.take (chooseIndex l v)).sum ≤ v ∧
      v < (l.take (chooseIndex l v)).sum + l.getD (chooseIndex l v) 0 := by
  intro l
  induction l with
  | nil =>
    intro _ v h0 hv
    simp only [List.sum_nil] at hv
    linarith
  | cons x xs ih =>
    intro hnn v h0 hv
    by_cases h : v < x
    · simp only [chooseIndex, if_pos h, List.length_cons, List.take_zero,
        List.sum_nil, List.getD_cons_zero]
      exact ⟨Nat.succ_pos _, h0, by linarith⟩
    · have hnn' : ∀ y ∈ xs, 0 ≤ y := fun y hy =>
        hnn y (List.mem_cons_of_mem _ hy)
      have hx : x ≤ v := le_of_not_lt h
      have h0' : 0 ≤ v - x := by linarith
      have hv' : v - x < xs.sum := by
        simp only [List.sum_cons] at hv
        linarith
      obtain ⟨h1, h2, h3⟩ := ih hnn' (v - x) h0' hv'
      simp only [chooseIndex, if_neg h, List.length_cons]
      have hone : 1 + chooseIndex xs (v - x) = chooseIndex xs (v - x) + 1 :=
        Nat.add_comm _ _
      rw [hone]
      refine ⟨Nat.succ_lt_succ h1, ?_, ?_⟩
      · rw [List.take_succ_cons, List.sum_cons]
        linarith
      · rw [List.take_succ_cons, List.sum_cons, List.getD_cons_succ]
        linarith

lemma natFloor_uniform (n j : Nat) (u : ℚ) (hn : 0 < n) (h0 : 0 ≤ u) :
    natFloor (u * n) = j ↔
      ((j : ℚ) / n ≤ u ∧ u < ((j : ℚ) + 1) / n) := by
  have hnq : (0 : ℚ) < n := by exact_mod_cast hn
  have hq : 0 ≤ u * (n : ℚ) := mul_nonneg h0 (le_of_lt hnq)
  have hfl0 : 0 ≤ ⌊u * (n : ℚ)⌋ := Int.floor_nonneg.2 hq
  constructor
  · intro h
    have hfl : ⌊u * (n : ℚ)⌋ = (j : ℤ) := by
      unfold natFloor at h
      omega
    obtain ⟨h1, h2⟩ := Int.floor_eq_iff.1 hfl
    constructor
    · rw [div_le_iff hnq]
      exact_mod_cast h1
    · rw [lt_div_iff hnq]
      push_cast at h2 ⊢
      linarith
  · rintro ⟨h1, h2⟩
    have h1' : (j : ℚ) ≤ u * n := by
      have := (div_le_iff hnq).1 h1
      linarith
    have h2' : u * n < (j : ℚ) + 1 := by
      have := (lt_div_iff hnq).1 h2
      linarith
    have hfl : ⌊u * (n : ℚ)⌋ = (j : ℤ) := by
      rw [Int.floor_eq_iff]
      constructor
      · exact_mod_cast h1'
      · push_cast
        linarith
    unfold natFloor
    omega

lemma natFloor_lt (n : Nat) (u : ℚ) (hn : 0 < n) (h1 : u < 1) :
    natFloor (u * n) < n := by
  have hnq : (0 : ℚ) < n := by exact_mod_cast hn
  have hlt : u * (n : ℚ) < n := by nlinarith
  have : ⌊u * (n : ℚ)⌋ < (n : ℤ) := Int.floor_lt.2 (by exact_mod_cast hlt)
  unfold natFloor
  omega

/-- C9: in the flat fallback model, after preparation and any mutation
sequence each category's precomputed total equals the category base rate
times the count of sites currently in that category (counts being fixed up
by a linear scan on every mutation); site sampling first selects the
category whose cumulative-rate interval contains `u1 · (total rate)` —
i.e. proportionally to the aggregate category rates — and then picks the
`⌊u2 · count⌋`-th site of that category, each of the `count` sites being
chosen exactly for `u2` in an interval of length `1/count`. -/
theorem vanilla_flat_model (nCat : Nat) (catRates : List ℚ)
    (cats0 : List Nat) (muts : List (Nat × Nat))
    (hnn : ∀ x ∈ catRates, 0 ≤ x) (u1 u2 : ℚ)
    (h10 : 0 ≤ u1) (h11 : u1 < 1) (h20 : 0 ≤ u2) (h21 : u2 < 1)
    (hpos : 0 < (vanillaCatTotals catRates
      (vanillaStateAfter nCat cats0 muts)).sum)
    (hsites : 0 < (sitesInCat (vanillaStateAfter nCat cats0 muts).cats
      (selectedCat catRates (vanillaStateAfter nCat cats0 muts) u1)).length) :
    (∀ c, c < nCat →
      (vanillaCatTotals catRates (vanillaStateAfter nCat cats0 muts)).getD
          c 0 =
        catRates.getD c 0 *
          ((vanillaStateAfter nCat cats0 muts).cats.countP
            (fun x => x == c) : ℚ)) ∧
    (selectedCat catRates (vanillaStateAfter nCat cats0 muts) u1 <
        (vanillaCatTotals catRates (vanillaStateAfter nCat cats0 muts)).length ∧
      ((vanillaCatTotals catRates (vanillaStateAfter nCat cats0 muts)).take
          (selectedCat catRates (vanillaStateAfter nCat cats0 muts) u1)).sum ≤
        u1 * (vanillaCatTotals catRates
          (vanillaStateAfter nCat cats0 muts)).sum ∧
      u1 * (vanillaCatTotals catRates
          (vanillaStateAfter nCat cats0 muts)).sum <
        ((vanillaCatTotals catRates (vanillaStateAfter nCat cats0 muts)).take
          (selectedCat catRates (vanillaStateAfter nCat cats0 muts) u1)).sum +
        (vanillaCatTotals catRates (vanillaStateAfter nCat cats0 muts)).getD
          (selectedCat catRates (vanillaStateAfter nCat cats0 muts) u1) 0) ∧
    (sampleVanillaSite catRates (vanillaStateAfter nCat cats0 muts) u1 u2 =
      (sitesInCat (vanillaStateAfter nCat cats0 muts).cats
        (selectedCat catRates (vanillaStateAfter nCat cats0 muts) u1)).getD
        (natFloor (u2 * (sitesInCat (vanillaStateAfter nCat cats0 muts).cats
          (selectedCat catRates
            (vanillaStateAfter nCat cats0 muts) u1)).length)) 0 ∧
    natFloor (u2 * (sitesInCat (vanillaStateAfter nCat cats0 muts).cats
        (selectedCat catRates (vanillaStateAfter nCat cats0 muts) u1)).length) <
      (sitesInCat (vanillaStateAfter nCat cats0 muts).cats
        (selectedCat catRates (vanillaStateAfter nCat cats0 muts) u1)).length ∧
    ∀ j, j < (sitesInCat (vanillaStateAfter nCat cats0 muts).cats
        (selectedCat catRates (vanillaStateAfter nCat cats0 muts) u1)).length →
      (natFloor (u2 * (sitesInCat (vanillaStateAfter nCat cats0 muts).cats
          (selectedCat catRates
            (vanillaStateAfter nCat cats0 muts) u1)).length) = j ↔
        ((j : ℚ) / (sitesInCat (vanillaStateAfter nCat cats0 muts).cats
          (selectedCat catRates
            (vanillaStateAfter nCat cats0 muts) u1)).length ≤ u2 ∧
          u2 < ((j : ℚ) + 1) /
            (sitesInCat (vanillaStateAfter nCat cats0 muts).cats
              (selectedCat catRates
                (vanillaStateAfter nCat cats0 muts) u1)).length))) := by
  set s := vanillaStateAfter nCat cats0 muts with hs
  have hinv : s.counts = scanCounts nCat s.cats := by
    rw [hs]
    exact vanillaMutateSeq_scan nCat muts (prepareVanilla nCat cats0) rfl
  have hclen : s.counts.length = nCat := by
    rw [hinv]
    simp [scanCounts]
  refine ⟨?_, ?_, ?_⟩
  · intro c hc
    have hc' : c < s.counts.length := by omega
    unfold vanillaCatTotals
    rw [getD_map_range _ _ _ c hc']
    congr 1
    rw [hinv]
    unfold scanCounts
    rw [getD_map_range _ _ _ c hc]
  · have hnn' := vanillaCatTotals_nonneg catRates s hnn
    have hv0 : 0 ≤ u1 * (vanillaCatTotals catRates s).sum :=
      mul_nonneg h10 (le_of_lt hpos)
    have hv1 : u1 * (vanillaCatTotals catRates s).sum <
        (vanillaCatTotals catRates s).sum := by nlinarith
    exact chooseIndex_spec (vanillaCatTotals catRates s) hnn' _ hv0 hv1
  · refine ⟨rfl, natFloor_lt _ _ hsites h21, ?_⟩
    intro j _
    exact natFloor_uniform _ j u2 hsites h20

/-- Witness for C9: one category of base rate 1 holding the single site 0.
-/
theorem vanilla_flat_model_witness :
    ((vanillaCatTotals [1] (vanillaStateAfter 1 [0] [])).getD 0 0 =
      [(1 : ℚ)].getD 0 0 *
        (((vanillaStateAfter 1 [0] []).cats.countP (fun x => x == 0)) : ℚ)) :=
  (vanilla_flat_model 1 [1] [0] [] (by norm_num) 0 0 (by norm_num)
    (by norm_num) (by norm_num) (by norm_num)
    (by norm_num [vanillaCatTotals, vanillaStateAfter, vanillaMutateSeq,
      prepareVanilla, scanCounts, List.range_succ])
    (by norm_num [sitesInCat, selectedCat, vanillaCatTotals,
      vanillaStateAfter, vanillaMutateSeq, prepareVanilla, scanCounts,
      chooseIndex, List.range_succ])).1 0 (by norm_num)

end PhastSim
